import Mathlib

/-!
Shallow embedding of `cerbernetix/toolbox/math/combination.py` and proofs of
the specification claims about it.

The three Python functions `get_combination_rank`, `get_combination_from_rank`
and `get_combinations` are translated into Lean definitions below.  Python
integers become `Int`, Python floor division `//` becomes `Int.fdiv`, and
fallible operations (`math.comb` on negative arguments, list indexing,
`raise ValueError`) are modelled with `Except String`.  The `while` loops of
the unranker are modelled with an explicit fuel parameter; the fuel chosen at
the call sites is proved sufficient for every input that reaches the loops,
so the `none` (fuel exhausted) branch is unreachable there.
-/

namespace Toolbox

/-- Python `math.comb`: raises `ValueError` on a negative argument, returns
`C(n, k)` otherwise (0 when `k > n`). -/
def pyComb (n k : Int) : Except String Int :=
  if n < 0 then .error "n must be a non-negative integer"
  else if k < 0 then .error "k must be a non-negative integer"
  else .ok (Nat.choose n.toNat k.toNat)

/-- The loop body of `get_combination_rank`: iterates over the sorted,
offset-subtracted values together with their 0-based position, skipping the
positions where `value == index` and accumulating `comb(value, index + 1)`. -/
def rankAux : Nat → List Int → Except String Int
  | _, [] => .ok 0
  | index, v :: rest =>
    if v = (index : Int) then rankAux (index + 1) rest
    else do
      let c ← pyComb v ((index : Int) + 1)
      let r ← rankAux (index + 1) rest
      return c + r

/-- Embedding of `get_combination_rank(combination, offset=0)`:
sort the combination, subtract the offset from every value, then accumulate
the binomial contributions. -/
def get_combination_rank (combination : List Int) (offset : Int) :
    Except String Int :=
  rankAux 0 ((combination.insertionSort (· ≤ ·)).map (fun v => v - offset))

/-- First `while` loop of `get_combination_from_rank`:
`while b <= rank: val += 1; binomial = b; b = (b * (val + length)) // val`,
with an explicit fuel.  State: `(val, binomial, b)`; returns `(val, binomial)`. -/
def unrankLoop1 (length rank : Int) : Nat → Int → Int → Int → Option (Int × Int)
  | 0, _, _, _ => none
  | fuel + 1, val, binomial, b =>
    if b ≤ rank then
      unrankLoop1 length rank fuel (val + 1) b ((b * ((val + 1) + length)).fdiv (val + 1))
    else some (val, binomial)

/-- Inner `while` loop of `get_combination_from_rank`:
`while binomial > rank: val -= 1; binomial = (binomial * val) // (val + index)`,
with an explicit fuel.  Returns the final `(val, binomial)`. -/
def unrankLoop3 (rank index : Int) : Nat → Int → Int → Option (Int × Int)
  | 0, _, _ => none
  | fuel + 1, val, binomial =>
    if binomial > rank then
      unrankLoop3 rank index fuel (val - 1) ((binomial * (val - 1)).fdiv ((val - 1) + index))
    else some (val, binomial)

/-- The `for index in range(length - 1, 1, -1)` loop of
`get_combination_from_rank`, followed by the two final assignments
`combination[1] = val + 1 + offset` and `combination[0] = rank - binomial + offset`.
The elements written at positions `length - 1 … 2` are accumulated in `acc`
(innermost position first), so the returned list is the combination in
ascending position order. -/
def unrankLoop2 (offset : Int) : Nat → Int → Int → Int → List Int → Option (List Int)
  | 0, rank, val, binomial, acc =>
    some ((rank - binomial + offset) :: (val + 1 + offset) :: acc)
  | 1, rank, val, binomial, acc =>
    some ((rank - binomial + offset) :: (val + 1 + offset) :: acc)
  | i + 2, rank, val, binomial, acc =>
    let index : Int := (i : Int) + 2
    let rank1 := rank - binomial
    let binomial1 := (binomial * (index + 1)).fdiv (val + index)
    match unrankLoop3 rank1 index (val.toNat + 1) val binomial1 with
    | none => none
    | some (val1, binomial2) =>
      unrankLoop2 offset (i + 1) rank1 val1 binomial2 ((val + index + offset) :: acc)

/-- Embedding of `get_combination_from_rank(rank, length=2, offset=0)`. -/
def get_combination_from_rank (rank length offset : Int) :
    Except String (List Int) :=
  if rank < 0 then .error "The rank must not be negative"
  else if length < 0 then .error "The length must not be negative"
  else if length = 0 then .ok []
  else if length = 1 then .ok [rank + offset]
  else
    match unrankLoop1 length rank (rank.toNat + 1) 0 0 1 with
    | none => .error "nontermination"
    | some (val, binomial) =>
      match unrankLoop2 offset (length.toNat - 1) rank val binomial [] with
      | none => .error "nontermination"
      | some c => .ok c

/-- The `values` argument of `get_combinations`: either a bare integer count
(`isinstance(values, int)`) or a list of values. -/
inductive Values where
  | count : Int → Values
  | items : List Int → Values
deriving DecidableEq

/-- `nb_values` as computed by `get_combinations`: the count itself, or the
length of the collection. -/
def nbValues : Values → Int
  | .count n => n
  | .items xs => xs.length

/-- Python list indexing `xs[i]`: supports negative indices counting from the
end, raises `IndexError` out of range. -/
def pyGetItem (xs : List Int) (i : Int) : Except String Int :=
  if 0 ≤ i ∧ i < (xs.length : Int) then .ok (xs.getD i.toNat 0)
  else if -(xs.length : Int) ≤ i ∧ i < 0 then .ok (xs.getD (i + xs.length).toNat 0)
  else .error "list index out of range"

/-- `get_value` in `get_combinations`: `passthrough` for a bare count,
`values.__getitem__` for a collection. -/
def getValueFn (values : Values) (x : Int) : Except String Int :=
  match values with
  | .count _ => .ok x
  | .items xs => pyGetItem xs x

/-- `get_index` in `get_combinations`: `passthrough` when `indexes is None`,
`indexes.__getitem__` otherwise. -/
def getIndexFn (indexes : Option (List Int)) (x : Int) : Except String Int :=
  match indexes with
  | none => .ok x
  | some xs => pyGetItem xs x

/-- Number of elements of Python `range(start, stop, step)` (for `step ≠ 0`). -/
def pyRangeCount (start stop step : Int) : Nat :=
  if 0 < step then ((stop - start + step - 1).fdiv step).toNat
  else ((start - stop - step - 1).fdiv (-step)).toNat

/-- Python `range(start, stop, step)` as a list, for `step ≠ 0`. -/
def pyRange (start stop step : Int) : List Int :=
  (List.range (pyRangeCount start stop step)).map (fun (i : Nat) => start + step * (i : Int))

/-- Embedding of `get_combinations(values, length, start, stop, step, offset,
indexes)`, materialized: `.ok` of the list of all yielded items, or `.error`
when consuming the generator raises. -/
def get_combinations (values : Values) (length start : Int) (stop : Option Int)
    (step offset : Int) (indexes : Option (List Int)) :
    Except String (List (List Int)) :=
  let nb_values := nbValues values
  if nb_values = 0 ∨ length = 0 then .ok []
  else do
    let nb_comb ← pyComb nb_values length
    let stop1 := match stop with
      | none => nb_comb
      | some s => if s > nb_comb then nb_comb else s
    let start1 := if start ≥ nb_comb then nb_comb - 1 else start
    if start1 < 0 ∨ stop1 < -1 then
      .error "A combination range cannot start or stop with a negative value"
    else
      let step1 := if start1 > stop1 then -(step.natAbs : Int) else (step.natAbs : Int)
      if step1 = 0 then .error "range() arg 3 must not be zero"
      else
        (pyRange start1 stop1 step1).mapM (fun rank => do
          let combination ← get_combination_from_rank rank length 0
          combination.mapM (fun position => do
            let i ← getIndexFn indexes position
            let v ← getValueFn values i
            return v + offset))

/-- The rank formula exactly as the specification words it: over 0-based
ascending-sorted positions `i` holding value `v`, a position with `v == i`
contributes 0 and any other position contributes `C(v, i + 1)`. -/
def specRankSum : Nat → List Int → Int
  | _, [] => 0
  | i, v :: rest =>
    (if v = (i : Int) then 0 else (Nat.choose v.toNat (i + 1) : Int)) +
      specRankSum (i + 1) rest

example : get_combination_rank [1, 3, 5] 0 = .ok 14 := rfl
example : get_combination_rank [2, 3] 0 = .ok 5 := rfl
example : get_combination_rank [0, 1, 2] 0 = .ok 0 := rfl
example : get_combination_rank [] 0 = .ok 0 := rfl
example : get_combination_from_rank 14 3 0 = .ok [1, 3, 5] := rfl
example : get_combination_from_rank 5 2 0 = .ok [2, 3] := rfl
example : get_combination_from_rank 9 3 0 = .ok [2, 3, 4] := rfl
example : get_combinations (.count 5) 3 100 none 1 0 none = .ok [[2, 3, 4]] := rfl
example :
    get_combinations (.count 2) 3 0 none 1 0 none =
      .error "A combination range cannot start or stop with a negative value" := rfl

/-! ### Monad plumbing for `Except` -/

lemma exceptBind_ok {α β : Type} (a : α) (f : α → Except String β) :
    (Except.ok a >>= f : Except String β) = f a := rfl

lemma exceptBind_err {α β : Type} (msg : String) (f : α → Except String β) :
    ((Except.error msg : Except String α) >>= f : Except String β) = .error msg := rfl

/-! ### Binomial coefficient facts -/

lemma succ_le_choose (v : Nat) : ∀ k : Nat, 1 ≤ k → v + 1 ≤ Nat.choose (v + k) k := by
  intro k
  induction k with
  | zero => omega
  | succ k ih =>
    intro _
    rcases Nat.eq_zero_or_pos k with h0 | h1
    · subst h0; simp [Nat.choose_one_right]
    · calc v + 1 ≤ Nat.choose (v + k) k := ih h1
        _ ≤ Nat.choose (v + k) k + Nat.choose (v + k) (k + 1) := Nat.le_add_right _ _
        _ = Nat.choose (v + k + 1) (k + 1) := (Nat.choose_succ_succ' (v + k) k).symm

/-! ### The rank formula refines the ranking loop -/

lemma rankAux_ok : ∀ (xs : List Int) (i : Nat), (∀ x ∈ xs, 0 ≤ x) →
    rankAux i xs = .ok (specRankSum i xs) := by
  intro xs
  induction xs with
  | nil => intro i _; rfl
  | cons v rest ih =>
    intro i h
    have hv : 0 ≤ v := h v (List.mem_cons_self v rest)
    have hrest := ih (i + 1) (fun x hx => h x (List.mem_cons_of_mem _ hx))
    by_cases hvi : v = (i : Int)
    · simp [rankAux, hvi, specRankSum, hrest, Int.toNat_natCast,
        Nat.choose_eq_zero_of_lt (Nat.lt_succ_self i)]
    · have hcast : ((i : Int) + 1).toNat = i + 1 := by omega
      have hcomb : pyComb v ((i : Int) + 1) = .ok (Nat.choose v.toNat (i + 1)) := by
        unfold pyComb
        rw [if_neg (by omega), if_neg (by omega), hcast]
      simp [rankAux, hvi, hcomb, exceptBind_ok, hrest, specRankSum]

lemma rankAux_error_of_neg (i : Nat) (v : Int) (rest : List Int) (hv : v < 0) :
    ∃ msg, rankAux i (v :: rest) = .error msg := by
  refine ⟨"n must be a non-negative integer", ?_⟩
  have hvi : ¬v = (i : Int) := by omega
  have hcomb : pyComb v ((i : Int) + 1) = .error "n must be a non-negative integer" := by
    unfold pyComb
    rw [if_pos hv]
  simp [rankAux, hvi, hcomb, exceptBind_err]

lemma specRankSum_append : ∀ (xs ys : List Int) (i : Nat),
    specRankSum i (xs ++ ys) = specRankSum i xs + specRankSum (i + xs.length) ys := by
  intro xs
  induction xs with
  | nil => intro ys i; simp [specRankSum]
  | cons v rest ih =>
    intro ys i
    have hidx : i + 1 + rest.length = i + (rest.length + 1) := by omega
    simp only [List.cons_append, specRankSum, List.length_cons, List.append_eq]
    rw [ih ys (i + 1), hidx]
    ring

lemma specRankSum_cons (i : Nat) (x : Int) (xs : List Int) :
    specRankSum i (x :: xs) = (Nat.choose x.toNat (i + 1) : Int) + specRankSum (i + 1) xs := by
  simp only [specRankSum]
  by_cases hxi : x = (i : Int)
  · rw [if_pos hxi, hxi, Int.toNat_natCast,
      Nat.choose_eq_zero_of_lt (Nat.lt_succ_self i)]
    simp
  · rw [if_neg hxi]

lemma specRankSum_singleton (i : Nat) (x : Int) :
    specRankSum i [x] = (Nat.choose x.toNat (i + 1) : Int) := by
  rw [specRankSum_cons i x []]
  simp [specRankSum]

/-! ### The inner while loop of the unranker

Invariant: with current index `j` and current value `v`, the running
`binomial` equals `C(v + j - 1, j)`.  The loop decrements `v` until the
binomial drops to at most the residual rank. -/

lemma unrankLoop3_spec (j : Nat) (hj : 1 ≤ j) (rank : Int) (hr : 0 ≤ rank) :
    ∀ fuel : Nat, ∀ v : Nat, v < fuel → ∀ binomial : Int,
      binomial = (Nat.choose (v + j - 1) j : Int) →
      ∃ v2 : Nat, v2 ≤ v ∧
        unrankLoop3 rank (j : Int) fuel (v : Int) binomial =
          some ((v2 : Int), (Nat.choose (v2 + j - 1) j : Int)) ∧
        (Nat.choose (v2 + j - 1) j : Int) ≤ rank ∧
        (v2 = v ∨ rank < (Nat.choose (v2 + j) j : Int)) := by
  intro fuel
  induction fuel with
  | zero => intro v hv; omega
  | succ fuel ih =>
    intro v hv binomial hb
    by_cases hcond : binomial > rank
    · -- the loop body runs: v must be positive, decrement it
      have hpos : 0 < Nat.choose (v + j - 1) j := by
        by_contra hc
        push_neg at hc
        have : Nat.choose (v + j - 1) j = 0 := by omega
        rw [this] at hb
        simp only [Nat.cast_zero] at hb
        omega
      have hv1 : 1 ≤ v := by
        by_contra hc
        push_neg at hc
        have hv0 : v = 0 := by omega
        rw [hv0, Nat.choose_eq_zero_of_lt (by omega : 0 + j - 1 < j)] at hpos
        omega
      obtain ⟨w, rfl⟩ : ∃ w, v = w + 1 := ⟨v - 1, by omega⟩
      -- the Pascal-style incremental update is exact
      have hident : Nat.choose (w + j) j * w = (w + j) * Nat.choose (w + j - 1) j := by
        have h0 := Nat.choose_mul_succ_eq (w + j - 1) j
        have he : w + j - 1 + 1 = w + j := by omega
        have he2 : w + j - j = w := by omega
        rw [he, he2] at h0
        rw [← h0, Nat.mul_comm]
      have hb2 : binomial = (Nat.choose (w + j) j : Int) := by
        rw [hb]
        congr 2
        omega
      have hidentZ : binomial * (w : Int) =
          ((w : Int) + (j : Int)) * (Nat.choose (w + j - 1) j : Int) := by
        rw [hb2]
        have hZ := congrArg (fun t : Nat => (t : Int)) hident
        push_cast at hZ
        linarith [hZ]
      have hcast1 : ((w + 1 : Nat) : Int) - 1 = (w : Int) := by push_cast; ring
      have hdiv : (binomial * (((w + 1 : Nat) : Int) - 1)).fdiv
          ((((w + 1 : Nat) : Int) - 1) + (j : Int)) = (Nat.choose (w + j - 1) j : Int) := by
        rw [hcast1, hidentZ, Int.mul_fdiv_cancel_left _ (by omega : ((w : Int) + (j : Int)) ≠ 0)]
      obtain ⟨v2, hle, heq, hbound, halt⟩ := ih w (by omega) _ rfl
      refine ⟨v2, by omega, ?_, hbound, ?_⟩
      · simp only [unrankLoop3]
        rw [if_pos hcond, hdiv, hcast1]
        exact heq
      · right
        rcases halt with rfl | hlt
        · have : (Nat.choose (v2 + j) j : Int) = binomial := by
            rw [hb2]
          rw [this]
          exact hcond
        · exact hlt
    · -- the loop exits immediately
      refine ⟨v, le_refl v, ?_, ?_, Or.inl rfl⟩
      · simp only [unrankLoop3]
        rw [if_neg hcond, hb]
      · rw [← hb]
        exact not_lt.mp hcond

/-! ### The first while loop of the unranker

Invariant: `b = C(val + length, length)` and `binomial = C(val + length - 1,
length)`.  The loop increments `val` until `b` exceeds the rank, so on exit
`C(val + length - 1, length) ≤ rank < C(val + length, length)`. -/

lemma unrankLoop1_spec (k : Nat) (hk : 2 ≤ k) (rank : Int) (hr : 0 ≤ rank) :
    ∀ fuel : Nat, ∀ v : Nat, rank.toNat - v < fuel → ∀ binomial b : Int,
      b = (Nat.choose (v + k) k : Int) →
      binomial = (Nat.choose (v + k - 1) k : Int) →
      binomial ≤ rank →
      ∃ v2 : Nat, v ≤ v2 ∧
        unrankLoop1 (k : Int) rank fuel (v : Int) binomial b =
          some ((v2 : Int), (Nat.choose (v2 + k - 1) k : Int)) ∧
        (Nat.choose (v2 + k - 1) k : Int) ≤ rank ∧
        rank < (Nat.choose (v2 + k) k : Int) := by
  intro fuel
  induction fuel with
  | zero => intro v hv; omega
  | succ fuel ih =>
    intro v hv binomial b hbEq hbinEq hbinLe
    by_cases hcond : b ≤ rank
    · -- the loop body runs: increment v
      have h1 : ((v : Int) + 1) ≤ b := by
        rw [hbEq]
        exact_mod_cast succ_le_choose v k (by omega)
      have hlow : (v : Int) + 1 ≤ rank := le_trans h1 hcond
      have hvlt : v < rank.toNat := by omega
      have hident : Nat.choose (v + k) k * (v + k + 1) =
          (v + 1) * Nat.choose (v + k + 1) k := by
        have h0 := Nat.choose_mul_succ_eq (v + k) k
        have he : v + k + 1 - k = v + 1 := by omega
        rw [he] at h0
        rw [h0, Nat.mul_comm]
      have hidentZ : b * (((v : Int) + 1) + (k : Int)) =
          ((v : Int) + 1) * (Nat.choose (v + 1 + k) k : Int) := by
        rw [hbEq]
        have hZ := congrArg (fun t : Nat => (t : Int)) hident
        push_cast at hZ
        have he2 : v + 1 + k = v + k + 1 := by omega
        rw [he2]
        linarith [hZ]
      have hdiv : (b * (((v : Int) + 1) + (k : Int))).fdiv ((v : Int) + 1) =
          (Nat.choose (v + 1 + k) k : Int) := by
        rw [hidentZ, Int.mul_fdiv_cancel_left _ (by omega : ((v : Int) + 1) ≠ 0)]
      have hbin2 : b = (Nat.choose (v + 1 + k - 1) k : Int) := by
        rw [hbEq]
        congr 2
        omega
      obtain ⟨v2, hge, heq, hle2, hlt2⟩ :=
        ih (v + 1) (by omega) b _ rfl hbin2 hcond
      refine ⟨v2, by omega, ?_, hle2, hlt2⟩
      simp only [unrankLoop1]
      rw [if_pos hcond, hdiv]
      have hcast : ((v + 1 : Nat) : Int) = (v : Int) + 1 := by push_cast; ring
      rw [← hcast]
      exact heq
    · -- the loop exits: b already exceeds the rank
      refine ⟨v, le_refl v, ?_, ?_, ?_⟩
      · simp only [unrankLoop1]
        rw [if_neg hcond, hbinEq]
      · rw [← hbinEq]
        exact hbinLe
      · rw [← hbEq]
        exact not_le.mp hcond

/-! ### The descending for loop of the unranker

Invariant at entry for index `j`: `binomial = C(val + j, j + 1)` and
`binomial ≤ rank < C(val + j + 1, j + 1)`.  Each iteration fixes the element
at position `j` to `val + j + offset`, subtracts its contribution from the
rank, and re-establishes the invariant for index `j - 1` via the inner loop. -/

lemma unrankLoop2_step (offset : Int) (i : Nat) (rank val binomial : Int) (acc : List Int) :
    unrankLoop2 offset (i + 2) rank val binomial acc =
      match unrankLoop3 (rank - binomial) ((i : Int) + 2) (val.toNat + 1) val
          ((binomial * (((i : Int) + 2) + 1)).fdiv (val + ((i : Int) + 2))) with
      | none => none
      | some (val1, binomial2) =>
        unrankLoop2 offset (i + 1) (rank - binomial) val1 binomial2
          ((val + ((i : Int) + 2) + offset) :: acc) := rfl

lemma unrankLoop2_spec (offset : Int) :
    ∀ j1 : Nat, ∀ rank : Int, 0 ≤ rank → ∀ v : Nat, ∀ binomial : Int,
      binomial = (Nat.choose (v + (j1 + 1)) (j1 + 2) : Int) →
      binomial ≤ rank →
      rank < (Nat.choose (v + j1 + 2) (j1 + 2) : Int) →
      ∀ acc : List Int,
      ∃ out : List Int,
        unrankLoop2 offset (j1 + 1) rank (v : Int) binomial acc = some (out ++ acc) ∧
        out.length = j1 + 2 ∧
        List.Chain' (· < ·) out ∧
        (∀ x ∈ out, offset ≤ x ∧ x ≤ (v : Int) + (j1 : Int) + 1 + offset) ∧
        specRankSum 0 (out.map (fun x => x - offset)) = rank := by
  intro j1
  induction j1 with
  | zero =>
    intro rank hr v binomial hb hble hrlt acc
    simp only [Nat.zero_add, Nat.add_zero] at hb hrlt
    have h0 := Nat.choose_succ_succ' (v + 1) 1
    rw [Nat.choose_one_right] at h0
    have hP := congrArg (fun t : Nat => (t : Int)) h0
    push_cast at hP
    have hab : rank - binomial < (v : Int) + 1 := by
      rw [hb]
      linarith [hrlt, hP]
    refine ⟨[rank - binomial + offset, (v : Int) + 1 + offset], rfl, rfl, ?_, ?_, ?_⟩
    · rw [List.chain'_pair]
      linarith
    · intro x hx
      rcases List.mem_cons.mp hx with rfl | hx
      · constructor <;> push_cast <;> linarith
      · rcases List.mem_cons.mp hx with rfl | hx
        · have hv0 : (0 : Int) ≤ (v : Int) := Int.natCast_nonneg v
          constructor <;> push_cast <;> linarith
        · cases hx
    · have hmap : ([rank - binomial + offset, (v : Int) + 1 + offset].map
          (fun x => x - offset)) = [rank - binomial, (v : Int) + 1] := by
        simp
      rw [hmap, specRankSum_cons 0, specRankSum_singleton 1]
      have ht1 : (Nat.choose (rank - binomial).toNat 1 : Int) = rank - binomial := by
        rw [Nat.choose_one_right]
        omega
      have ht2 : (((v : Int) + 1).toNat) = v + 1 := by omega
      rw [ht1, ht2]
      rw [hb]
      push_cast
      ring
  | succ j1 ih =>
    intro rank hr v binomial hb hble hrlt acc
    -- normalize the Nat index arithmetic in the hypotheses
    have e1 : v + (j1 + 1 + 1) = v + j1 + 2 := by omega
    have e2 : j1 + 1 + 2 = j1 + 3 := by omega
    have e3 : v + (j1 + 1) + 2 = v + j1 + 3 := by omega
    rw [e1, e2] at hb
    rw [e3, e2] at hrlt
    have hr1 : 0 ≤ rank - binomial := by linarith
    -- the binomial update before the inner loop is an exact division
    have hident : (v + j1 + 2) * Nat.choose (v + j1 + 1) (j1 + 2) =
        Nat.choose (v + j1 + 2) (j1 + 3) * (j1 + 3) := by
      have h0 := Nat.succ_mul_choose_eq (v + j1 + 1) (j1 + 2)
      simp only [Nat.succ_eq_add_one] at h0
      have ea : v + j1 + 1 + 1 = v + j1 + 2 := by omega
      have eb : j1 + 2 + 1 = j1 + 3 := by omega
      rw [ea, eb] at h0
      exact h0
    have hidentZ : binomial * (((j1 : Int) + 2) + 1) =
        ((v : Int) + ((j1 : Int) + 2)) * (Nat.choose (v + j1 + 1) (j1 + 2) : Int) := by
      rw [hb]
      have hZ := congrArg (fun t : Nat => (t : Int)) hident
      push_cast at hZ
      linarith [hZ]
    have hdiv : (binomial * (((j1 : Int) + 2) + 1)).fdiv ((v : Int) + ((j1 : Int) + 2)) =
        (Nat.choose (v + j1 + 1) (j1 + 2) : Int) := by
      rw [hidentZ,
        Int.mul_fdiv_cancel_left _ (by omega : ((v : Int) + ((j1 : Int) + 2)) ≠ 0)]
    -- run the inner while loop
    have hbinv : (Nat.choose (v + j1 + 1) (j1 + 2) : Int) =
        (Nat.choose (v + (j1 + 2) - 1) (j1 + 2) : Int) := by
      rw [show v + (j1 + 2) - 1 = v + j1 + 1 from by omega]
    obtain ⟨v2, hv2le, heq3, hb3le, halt⟩ :=
      unrankLoop3_spec (j1 + 2) (by omega) (rank - binomial) hr1 (v + 1) v (by omega)
        (Nat.choose (v + j1 + 1) (j1 + 2) : Int) hbinv
    have hcastj : ((j1 + 2 : Nat) : Int) = (j1 : Int) + 2 := by push_cast; ring
    rw [hcastj] at heq3
    -- the residual rank is below the next binomial bound
    have hless : rank - binomial < (Nat.choose (v2 + j1 + 2) (j1 + 2) : Int) := by
      rcases halt with rfl | hlt
      · have h0 := Nat.choose_succ_succ' (v2 + j1 + 2) (j1 + 2)
        have ea : v2 + j1 + 2 + 1 = v2 + j1 + 3 := by omega
        have eb : j1 + 2 + 1 = j1 + 3 := by omega
        rw [ea, eb] at h0
        have hZ := congrArg (fun t : Nat => (t : Int)) h0
        push_cast at hZ
        rw [hb]
        linarith [hrlt, hZ]
      · rw [show v2 + j1 + 2 = v2 + (j1 + 2) from by omega]
        exact hlt
    -- apply the induction hypothesis at index j1 + 1
    obtain ⟨out1, heq2, hlen1, hchain1, hbound1, hsum1⟩ :=
      ih (rank - binomial) hr1 v2 (Nat.choose (v2 + (j1 + 2) - 1) (j1 + 2) : Int)
        (by rw [show v2 + (j1 + 2) - 1 = v2 + (j1 + 1) from by omega]) hb3le hless
        (((v : Int) + ((j1 : Int) + 2) + offset) :: acc)
    refine ⟨out1 ++ [(v : Int) + ((j1 : Int) + 2) + offset], ?_, ?_, ?_, ?_, ?_⟩
    · -- the loop equation
      rw [show j1 + 1 + 1 = j1 + 2 from rfl, unrankLoop2_step, Int.toNat_natCast, hdiv,
        heq3]
      exact heq2.trans (by rw [List.append_cons])
    · simp [hlen1]
    · -- strict ascent
      apply List.chain'_iff_pairwise.mpr
      apply List.pairwise_append.mpr
      refine ⟨List.chain'_iff_pairwise.mp hchain1, List.pairwise_singleton _ _, ?_⟩
      intro x hx y hy
      rcases List.mem_singleton.mp hy with rfl
      have hxb := (hbound1 x hx).2
      have hc : (v2 : Int) ≤ (v : Int) := by exact_mod_cast hv2le
      linarith
    · -- element bounds
      intro x hx
      rcases List.mem_append.mp hx with hx1 | hx1
      · have hxb := hbound1 x hx1
        have hc : (v2 : Int) ≤ (v : Int) := by exact_mod_cast hv2le
        constructor
        · exact hxb.1
        · push_cast
          linarith [hxb.2]
      · rcases List.mem_singleton.mp hx1 with rfl
        have hv0 : (0 : Int) ≤ (v : Int) := Int.natCast_nonneg v
        have hj0 : (0 : Int) ≤ (j1 : Int) := Int.natCast_nonneg j1
        constructor
        · linarith
        · push_cast
          linarith
    · -- the rank decomposition
      rw [List.map_append, specRankSum_append]
      simp only [List.length_map, List.map_cons, List.map_nil, Nat.zero_add, hlen1]
      rw [hsum1]
      have he : (v : Int) + ((j1 : Int) + 2) + offset - offset =
          (v : Int) + ((j1 : Int) + 2) := by ring
      rw [he, specRankSum_singleton]
      have htoNat : (((v : Int) + ((j1 : Int) + 2)).toNat) = v + j1 + 2 := by omega
      rw [htoNat, show j1 + 2 + 1 = j1 + 3 from by omega, hb]
      ring

/-! ### Sorted lists are fixed points of the code's sort -/

lemma insertionSort_eq_of_chain (c : List Int) (h : List.Chain' (· < ·) c) :
    c.insertionSort (· ≤ ·) = c := by
  apply List.Sorted.insertionSort_eq
  exact (List.chain'_iff_pairwise.mp h).imp (fun hab => le_of_lt hab)

lemma rank_of_ascending (c : List Int) (offset : Int)
    (hch : List.Chain' (· < ·) c) (hlb : ∀ x ∈ c, offset ≤ x) :
    get_combination_rank c offset = .ok (specRankSum 0 (c.map (fun x => x - offset))) := by
  unfold get_combination_rank
  rw [insertionSort_eq_of_chain c hch]
  apply rankAux_ok
  intro x hx
  simp only [List.mem_map] at hx
  obtain ⟨y, hy, rfl⟩ := hx
  have := hlb y hy
  omega

/-! ### Full correctness of the unranker -/

lemma get_combination_from_rank_eq (rank length offset : Int)
    (h0 : 0 ≤ rank) (h2 : 2 ≤ length) :
    get_combination_from_rank rank length offset =
      match unrankLoop1 length rank (rank.toNat + 1) 0 0 1 with
      | none => .error "nontermination"
      | some (val, binomial) =>
        match unrankLoop2 offset (length.toNat - 1) rank val binomial [] with
        | none => .error "nontermination"
        | some c => .ok c := by
  unfold get_combination_from_rank
  rw [if_neg (by omega), if_neg (by omega), if_neg (by omega), if_neg (by omega)]

lemma unrank_spec (k : Nat) (hk : 1 ≤ k) (r offset : Int) (hr : 0 ≤ r) :
    ∃ c : List Int,
      get_combination_from_rank r (k : Int) offset = .ok c ∧
      c.length = k ∧
      List.Chain' (· < ·) c ∧
      (∀ x ∈ c, offset ≤ x) ∧
      specRankSum 0 (c.map (fun x => x - offset)) = r := by
  rcases Nat.lt_or_ge k 2 with hk1 | hk2
  · -- length 1: the trivial case of the bijection
    have hke : k = 1 := by omega
    subst hke
    refine ⟨[r + offset], ?_, rfl, ?_, ?_, ?_⟩
    · simp [get_combination_from_rank, not_lt.mpr hr]
    · simp
    · intro x hx
      rcases List.mem_singleton.mp hx with rfl
      linarith
    · have hmap : ([r + offset].map (fun x => x - offset)) = [r] := by simp
      rw [hmap, specRankSum_singleton 0 r, Nat.choose_one_right]
      omega
  · obtain ⟨j1, rfl⟩ : ∃ j1, k = j1 + 2 := ⟨k - 2, by omega⟩
    -- run the first loop from the initial state (val, binomial, b) = (0, 0, 1)
    have hb0 : (1 : Int) = (Nat.choose (0 + (j1 + 2)) (j1 + 2) : Int) := by
      rw [Nat.zero_add, Nat.choose_self]
      norm_num
    have hbin0 : (0 : Int) = (Nat.choose (0 + (j1 + 2) - 1) (j1 + 2) : Int) := by
      rw [Nat.choose_eq_zero_of_lt (by omega)]
      norm_num
    obtain ⟨v2, _, heq1, hle1, hlt1⟩ :=
      unrankLoop1_spec (j1 + 2) (by omega) r hr (r.toNat + 1) 0 (by omega) 0 1 hb0 hbin0 hr
    rw [Nat.cast_zero] at heq1
    -- then the main loop, whose invariant holds on exit of the first loop
    have hlt2 : r < (Nat.choose (v2 + j1 + 2) (j1 + 2) : Int) := by
      rw [show v2 + j1 + 2 = v2 + (j1 + 2) from by omega]
      exact hlt1
    obtain ⟨out, heq2, hlen, hchain, hbound, hsum⟩ :=
      unrankLoop2_spec offset j1 r hr v2
        (Nat.choose (v2 + (j1 + 2) - 1) (j1 + 2) : Int)
        (by rw [show v2 + (j1 + 2) - 1 = v2 + (j1 + 1) from by omega])
        hle1 hlt2 []
    refine ⟨out, ?_, hlen, hchain, fun x hx => (hbound x hx).1, hsum⟩
    calc get_combination_from_rank r ((j1 + 2 : Nat) : Int) offset
        = match unrankLoop1 ((j1 + 2 : Nat) : Int) r (r.toNat + 1) 0 0 1 with
          | none => .error "nontermination"
          | some (val, binomial) =>
            match unrankLoop2 offset ((((j1 + 2 : Nat) : Int)).toNat - 1) r val binomial []
                with
            | none => .error "nontermination"
            | some c => .ok c :=
          get_combination_from_rank_eq r _ offset hr (by omega)
      _ = match unrankLoop2 offset ((((j1 + 2 : Nat) : Int)).toNat - 1) r ((v2 : Nat) : Int)
              (Nat.choose (v2 + (j1 + 2) - 1) (j1 + 2) : Int) [] with
          | none => .error "nontermination"
          | some c => .ok c := by
          rw [heq1]
      _ = .ok out := by
          rw [Int.toNat_natCast, show j1 + 2 - 1 = j1 + 1 from by omega, heq2,
            List.append_nil]

/-! ### Claim C1 -/

/-- Claim C1: for every length `k ≥ 1`, every offset, and every rank `r` with
`0 ≤ r < C(n, k)` for some ground-set size `n`, `get_combination_from_rank`
returns a strictly ascending list of `k` integers, and `get_combination_rank`
applied to it with the same offset returns `r`. -/
theorem C1_round_trip (k : Nat) (hk : 1 ≤ k) (r offset : Int) (hr : 0 ≤ r)
    (hn : ∃ n : Nat, r < (Nat.choose n k : Int)) :
    ∃ c : List Int,
      get_combination_from_rank r (k : Int) offset = .ok c ∧
      c.length = k ∧ List.Chain' (· < ·) c ∧
      get_combination_rank c offset = .ok r := by
  obtain ⟨c, h1, h2, h3, h4, h5⟩ := unrank_spec k hk r offset hr
  exact ⟨c, h1, h2, h3, by rw [rank_of_ascending c offset h3 h4, h5]⟩

theorem C1_round_trip_witness :
    ∃ c : List Int,
      get_combination_from_rank 14 ((3 : Nat) : Int) 1 = .ok c ∧
      c.length = 3 ∧ List.Chain' (· < ·) c ∧
      get_combination_rank c 1 = .ok 14 :=
  C1_round_trip 3 (by norm_num) 14 1 (by norm_num) ⟨7, by decide⟩

/-! ### Helpers for the enumerator -/

lemma pyComb_natCast (n k : Nat) :
    pyComb (n : Int) (k : Int) = .ok ((Nat.choose n k : Nat) : Int) := by
  unfold pyComb
  rw [if_neg (by omega), if_neg (by omega), Int.toNat_natCast, Int.toNat_natCast]

lemma mapM_ok_of_forall {α β : Type} (f : α → Except String β) :
    ∀ xs : List α, (∀ x ∈ xs, ∃ y, f x = .ok y) →
      ∃ ys, xs.mapM f = .ok ys ∧ List.Forall₂ (fun x y => f x = .ok y) xs ys := by
  intro xs
  induction xs with
  | nil => intro _; exact ⟨[], rfl, List.Forall₂.nil⟩
  | cons x rest ih =>
    intro h
    obtain ⟨y, hy⟩ := h x (List.mem_cons_self x rest)
    obtain ⟨ys, hys, hf⟩ := ih (fun z hz => h z (List.mem_cons_of_mem _ hz))
    refine ⟨y :: ys, ?_, List.Forall₂.cons hy hf⟩
    rw [List.mapM_cons, hy, exceptBind_ok, hys, exceptBind_ok]
    rfl

lemma forall₂_of_mapM_ok {α β : Type} (f : α → Except String β) :
    ∀ (xs : List α) (ys : List β), xs.mapM f = .ok ys →
      List.Forall₂ (fun x y => f x = .ok y) xs ys := by
  intro xs
  induction xs with
  | nil =>
    intro ys h
    rw [List.mapM_nil] at h
    injection h with h
    rw [← h]
    exact List.Forall₂.nil
  | cons x rest ih =>
    intro ys h
    rw [List.mapM_cons] at h
    cases hfx : f x with
    | error m => rw [hfx, exceptBind_err] at h; cases h
    | ok y =>
      rw [hfx, exceptBind_ok] at h
      cases hrest : rest.mapM f with
      | error m => rw [hrest, exceptBind_err] at h; cases h
      | ok zs =>
        rw [hrest, exceptBind_ok] at h
        injection h with h
        rw [← h]
        exact List.Forall₂.cons hfx (ih zs hrest)

lemma forall₂_mem_right {α β : Type} {R : α → β → Prop} {xs : List α} {ys : List β}
    (h : List.Forall₂ R xs ys) : ∀ y ∈ ys, ∃ x ∈ xs, R x y := by
  induction h with
  | nil => intro y hy; cases hy
  | cons hR htail ih =>
    intro y hy
    rcases List.mem_cons.mp hy with rfl | hy
    · exact ⟨_, List.mem_cons_self _ _, hR⟩
    · obtain ⟨x, hx, hRx⟩ := ih y hy
      exact ⟨x, List.mem_cons_of_mem _ hx, hRx⟩

lemma mapM_pure_fun {α β : Type} (g : α → β) :
    ∀ xs : List α, xs.mapM (fun x => (Except.ok (g x) : Except String β)) =
      .ok (xs.map g) := by
  intro xs
  induction xs with
  | nil => rfl
  | cons x rest ih =>
    rw [List.mapM_cons, exceptBind_ok, ih, exceptBind_ok]
    rfl

lemma exceptBind_eq_ok {α β : Type} {x : Except String α} {f : α → Except String β}
    {y : β} (h : (x >>= f) = .ok y) : ∃ a, x = .ok a ∧ f a = .ok y := by
  cases x with
  | error m => rw [exceptBind_err] at h; exact Except.noConfusion h
  | ok a => exact ⟨a, rfl, by rw [exceptBind_ok] at h; exact h⟩

lemma mapM_map_split {α β γ : Type} (g : α → Except String β) (h : β → γ) :
    ∀ (xs : List α) (ys : List γ),
      xs.mapM (fun x => do let t ← g x; return h t) = .ok ys →
      ∃ zs, xs.mapM g = .ok zs ∧ ys = zs.map h := by
  intro xs
  induction xs with
  | nil =>
    intro ys hh
    rw [List.mapM_nil] at hh
    injection hh with hh
    exact ⟨[], rfl, by rw [← hh]; rfl⟩
  | cons x rest ih =>
    intro ys hh
    rw [List.mapM_cons] at hh
    obtain ⟨b, hb, hh2⟩ := exceptBind_eq_ok hh
    obtain ⟨t, hgt, hpure⟩ := exceptBind_eq_ok hb
    have hbt : Except.ok (h t) = Except.ok b := hpure
    injection hbt with hbt
    obtain ⟨ws, hws, hcons⟩ := exceptBind_eq_ok hh2
    have hys : Except.ok (b :: ws) = Except.ok ys := hcons
    injection hys with hys
    obtain ⟨zs, hz1, hz2⟩ := ih ws hws
    refine ⟨t :: zs, ?_, ?_⟩
    · rw [List.mapM_cons, hgt, exceptBind_ok, hz1, exceptBind_ok]
      rfl
    · rw [← hys, ← hbt, hz2]
      rfl

lemma pyRange_zero (m : Nat) :
    pyRange 0 (m : Int) 1 = (List.range m).map (fun (i : Nat) => (i : Int)) := by
  unfold pyRange pyRangeCount
  rw [if_pos (by norm_num)]
  have hc : ((m : Int) - 0 + 1 - 1).fdiv 1 = (m : Int) := by
    rw [show (m : Int) - 0 + 1 - 1 = (m : Int) from by ring, Int.fdiv_one]
  rw [hc, Int.toNat_natCast]
  simp only [zero_add, one_mul]

lemma pyRange_succ_self (a : Int) : pyRange a (a + 1) 1 = [a] := by
  unfold pyRange pyRangeCount
  rw [if_pos (by norm_num)]
  have hc : (a + 1 - a + 1 - 1).fdiv 1 = 1 := by
    rw [show a + 1 - a + 1 - 1 = 1 from by ring, Int.fdiv_one]
  rw [hc, show (1 : Int).toNat = 1 from rfl,
    show List.range 1 = [0] from rfl]
  simp only [List.map_cons, List.map_nil, Nat.cast_zero, mul_zero, add_zero]

lemma pyRange_mem_nonneg (s t p x : Int) (hs : 0 ≤ s) (ht : -1 ≤ t) (hp : p ≠ 0)
    (hx : x ∈ pyRange s t p) : 0 ≤ x := by
  unfold pyRange at hx
  simp only [List.mem_map, List.mem_range] at hx
  obtain ⟨i, hi, rfl⟩ := hx
  rcases lt_or_gt_of_ne hp with hneg | hpos
  · unfold pyRangeCount at hi
    rw [if_neg (by omega)] at hi
    have hq1 : 1 ≤ (s - t - p - 1).fdiv (-p) := by
      by_contra hc
      push_neg at hc
      omega
    have hqb : (s - t - p - 1).fdiv (-p) * (-p) ≤ s - t - p - 1 := by
      rw [Int.fdiv_eq_ediv _ (by omega)]
      exact Int.ediv_mul_le (s - t - p - 1) (by omega)
    have hile : (i : Int) ≤ (s - t - p - 1).fdiv (-p) - 1 := by omega
    have hmul : p * ((s - t - p - 1).fdiv (-p) - 1) ≤ p * (i : Int) :=
      mul_le_mul_of_nonpos_left hile (by omega)
    nlinarith [hmul, hqb, ht]
  · have : 0 ≤ p * (i : Int) := mul_nonneg (by omega) (Int.natCast_nonneg i)
    linarith

lemma mapM_count_noindex (nv : Int) (offset : Int) (c : List Int) :
    c.mapM (fun position => do
      let i ← getIndexFn none position
      let v ← getValueFn (.count nv) i
      return v + offset) = .ok (c.map (fun p => p + offset)) := by
  have h1 : (fun position : Int => do
      let i ← getIndexFn none position
      let v ← getValueFn (.count nv) i
      return v + offset) = fun p : Int => (Except.ok (p + offset) : Except String Int) := by
    funext p
    rfl
  rw [h1, mapM_pure_fun]

/-! ### Claim C2 -/

/-- Claim C2: for every non-empty combination whose elements are distinct and
non-negative after subtracting the offset, `get_combination_rank` returns the
sum over 0-based ascending-sorted positions `i` holding value `v` of
`C(v, i+1)` (a position with `v == i` contributing 0), and in particular the
ranks of `[1, 3, 5]`, `[2, 3]` and `[0, 1, 2]` are 14, 5 and 0. -/
theorem C2_rank_formula :
    (∀ (c : List Int) (offset : Int), c ≠ [] →
      (∀ x ∈ c, 0 ≤ x - offset) →
      (c.map (fun v => v - offset)).Nodup →
      get_combination_rank c offset =
        .ok (specRankSum 0 ((c.insertionSort (· ≤ ·)).map (fun v => v - offset)))) ∧
    get_combination_rank [1, 3, 5] 0 = .ok 14 ∧
    get_combination_rank [2, 3] 0 = .ok 5 ∧
    get_combination_rank [0, 1, 2] 0 = .ok 0 := by
  refine ⟨?_, rfl, rfl, rfl⟩
  intro c offset hne hnn hnd
  unfold get_combination_rank
  apply rankAux_ok
  intro x hx
  simp only [List.mem_map] at hx
  obtain ⟨y, hy, rfl⟩ := hx
  exact hnn y ((List.perm_insertionSort (· ≤ ·) c).mem_iff.mp hy)

theorem C2_rank_formula_witness :
    get_combination_rank [1, 3, 5] 0 =
      .ok (specRankSum 0 (([1, 3, 5].insertionSort (· ≤ ·)).map (fun v => v - 0))) :=
  C2_rank_formula.1 [1, 3, 5] 0 (by decide) (by decide) (by decide)

/-! ### Claim C9 -/

/-- Claim C9 counterexample: the claim says every call with `start < 0` or
`stop < -1` fails with an error; a degenerate call (ground-set size 0) with
`start = -5` and `stop = -7` instead returns the empty result. -/
theorem C9_invalid_range_counterexample :
    get_combinations (.count 0) 2 (-5) (some (-7)) 1 0 none = .ok [] := rfl

/-- Claim C9 (amended): for every call whose resolved ground-set size and
length are both nonzero, `start < 0` or `stop < -1` makes `get_combinations`
fail with a `ValueError` and yield no items; when the size or the length is
zero the call instead returns the empty sequence without error. -/
theorem C9_invalid_range_rejection (values : Values) (length start : Int)
    (stop : Option Int) (step offset : Int) (indexes : Option (List Int))
    (hnb : nbValues values ≠ 0) (hlen : length ≠ 0)
    (hbad : start < 0 ∨ ∃ s, stop = some s ∧ s < -1) :
    ∃ msg, get_combinations values length start stop step offset indexes =
      .error msg := by
  unfold get_combinations
  rw [if_neg (by tauto : ¬(nbValues values = 0 ∨ length = 0))]
  cases hpc : pyComb (nbValues values) length with
  | error msg =>
    exact ⟨msg, by simp only [hpc, exceptBind_err]⟩
  | ok nb =>
    have hnb0 : 0 ≤ nb := by
      unfold pyComb at hpc
      by_cases h1 : nbValues values < 0
      · rw [if_pos h1] at hpc; cases hpc
      · rw [if_neg h1] at hpc
        by_cases h2 : length < 0
        · rw [if_pos h2] at hpc; cases hpc
        · rw [if_neg h2] at hpc
          cases hpc
          exact Int.natCast_nonneg _
    rcases hbad with hstart | ⟨s, rfl, hs⟩
    · refine ⟨"A combination range cannot start or stop with a negative value", ?_⟩
      simp only [hpc, exceptBind_ok]
      rw [if_pos (Or.inl (by rw [if_neg (by omega : ¬start ≥ nb)]; exact hstart))]
    · refine ⟨"A combination range cannot start or stop with a negative value", ?_⟩
      simp only [hpc, exceptBind_ok]
      rw [if_pos (Or.inr (by rw [if_neg (by omega : ¬s > nb)]; exact hs))]

theorem C9_invalid_range_rejection_witness :
    ∃ msg, get_combinations (.count 3) 2 (-1) none 1 0 none = .error msg :=
  C9_invalid_range_rejection (.count 3) 2 (-1) none 1 0 none (by decide) (by decide)
    (Or.inl (by norm_num))

/-! ### Claim C3 -/

/-- Any item produced by the enumerator's main loop is a translated unrank:
shared analysis used for the general half of claim C3. -/
lemma enumerate_item_shape (values : Values) (length offset : Int)
    (indexes : Option (List Int)) (s1 t1 p1 : Int) (L : List (List Int))
    (hok : (if s1 < 0 ∨ t1 < -1 then
        (.error "A combination range cannot start or stop with a negative value" :
          Except String (List (List Int)))
      else if p1 = 0 then .error "range() arg 3 must not be zero"
      else (pyRange s1 t1 p1).mapM (fun rank => do
        let combination ← get_combination_from_rank rank length 0
        combination.mapM (fun position => do
          let i ← getIndexFn indexes position
          let v ← getValueFn values i
          return v + offset))) = .ok L) :
    ∀ item ∈ L, ∃ (r : Int) (c c2 : List Int), 0 ≤ r ∧
      get_combination_from_rank r length 0 = .ok c ∧
      c.mapM (fun position => do
        let i ← getIndexFn indexes position
        getValueFn values i) = .ok c2 ∧
      item = c2.map (fun v => v + offset) := by
  intro item hitem
  by_cases h1 : s1 < 0 ∨ t1 < -1
  · rw [if_pos h1] at hok
    exact Except.noConfusion hok
  rw [if_neg h1] at hok
  by_cases h2 : p1 = 0
  · rw [if_pos h2] at hok
    exact Except.noConfusion hok
  rw [if_neg h2] at hok
  push_neg at h1
  have hforall := forall₂_of_mapM_ok _ _ _ hok
  obtain ⟨r, hrmem, hrel⟩ := forall₂_mem_right hforall item hitem
  have hr0 : 0 ≤ r := pyRange_mem_nonneg _ _ _ r h1.1 h1.2 h2 hrmem
  obtain ⟨c, hcr, hinner⟩ := exceptBind_eq_ok hrel
  have hinner1 : c.mapM (fun position => do
      let i ← getIndexFn indexes position
      let v ← getValueFn values i
      return v + offset) = .ok item := hinner
  have hassoc : (fun position : Int => do
      let i ← getIndexFn indexes position
      let v ← getValueFn values i
      return v + offset : Int → Except String Int) =
      (fun position : Int => do
        let t ← (do
          let i ← getIndexFn indexes position
          getValueFn values i)
        return t + offset) := by
    funext p
    cases hgi : getIndexFn indexes p
    · rfl
    · rfl
  rw [hassoc] at hinner1
  obtain ⟨c2, hc2, hitem_eq⟩ := mapM_map_split (fun position : Int => do
      let i ← getIndexFn indexes position
      getValueFn values i) (fun t => t + offset) c item hinner1
  exact ⟨r, c, c2, hr0, hcr, hc2, hitem_eq⟩

/-- Claim C3: for a bare count `n ≥ 1` and a length `k` with `C(n, k) ≥ 1`,
the `i`-th item yielded by `get_combinations(n, k)` with default arguments is
`get_combination_from_rank(i, k)` (and for `k ≥ 1` exactly `C(n, k)` items
are yielded); in general every yielded item is obtained from a combination
unranked with offset 0 by mapping each element through the index table, then
through the value source, then adding the offset. -/
theorem C3_enumerator_unranks :
    (∀ (n k : Nat), 1 ≤ n → 1 ≤ Nat.choose n k →
      ∃ L, get_combinations (.count (n : Int)) (k : Int) 0 none 1 0 none = .ok L ∧
        (∀ i (hi : i < L.length),
          get_combination_from_rank (i : Int) (k : Int) 0 = .ok (L.get ⟨i, hi⟩)) ∧
        (1 ≤ k → L.length = Nat.choose n k)) ∧
    (∀ (values : Values) (length start : Int) (stop : Option Int)
        (step offset : Int) (indexes : Option (List Int)) (L : List (List Int)),
      get_combinations values length start stop step offset indexes = .ok L →
      ∀ item ∈ L, ∃ (r : Int) (c c2 : List Int), 0 ≤ r ∧
        get_combination_from_rank r length 0 = .ok c ∧
        c.mapM (fun position => do
          let i ← getIndexFn indexes position
          getValueFn values i) = .ok c2 ∧
        item = c2.map (fun v => v + offset)) := by
  constructor
  · intro n k hn hchoose
    by_cases hk0 : k = 0
    · subst hk0
      refine ⟨[], ?_, ?_, ?_⟩
      · unfold get_combinations
        simp [nbValues]
      · intro i hi
        exact absurd hi (by simp)
      · intro h10
        omega
    · have hk : 1 ≤ k := by omega
      have hkn : k ≤ n := by
        by_contra hc
        push_neg at hc
        rw [Nat.choose_eq_zero_of_lt hc] at hchoose
        omega
      have hC1 : (1 : Int) ≤ ((Nat.choose n k : Nat) : Int) := by exact_mod_cast hchoose
      have hF : ∀ r : Int, 0 ≤ r → ∃ c : List Int,
          get_combination_from_rank r (k : Int) 0 = .ok c ∧
          (do let combination ← get_combination_from_rank r (k : Int) 0
              combination.mapM (fun position => do
                let i ← getIndexFn none position
                let v ← getValueFn (.count (n : Int)) i
                return v + 0)) = Except.ok c := by
        intro r hr
        obtain ⟨c, hc, -, -, -, -⟩ := unrank_spec k hk r 0 hr
        refine ⟨c, hc, ?_⟩
        rw [hc, exceptBind_ok, mapM_count_noindex]
        congr 1
        simp
      obtain ⟨L, hL, hLf⟩ := mapM_ok_of_forall (fun rank => do
          let combination ← get_combination_from_rank rank (k : Int) 0
          combination.mapM (fun position => do
            let i ← getIndexFn none position
            let v ← getValueFn (.count (n : Int)) i
            return v + 0))
        ((List.range (Nat.choose n k)).map (fun (i : Nat) => (i : Int))) (by
          intro r hrm
          simp only [List.mem_map, List.mem_range] at hrm
          obtain ⟨i, -, rfl⟩ := hrm
          obtain ⟨c, -, hc2⟩ := hF (i : Int) (Int.natCast_nonneg i)
          exact ⟨c, hc2⟩)
      have hrlen : ((List.range (Nat.choose n k)).map
          (fun (i : Nat) => (i : Int))).length = Nat.choose n k := by simp
      have hlen := hLf.length_eq
      refine ⟨L, ?_, ?_, ?_⟩
      · unfold get_combinations
        simp only [nbValues, pyComb_natCast, exceptBind_ok]
        rw [show (((1 : Int).natAbs : Nat) : Int) = 1 from rfl]
        rw [if_neg (by omega : ¬((n : Int) = 0 ∨ (k : Int) = 0))]
        have h2 : (if (0 : Int) ≥ ((Nat.choose n k : Nat) : Int)
            then ((Nat.choose n k : Nat) : Int) - 1 else (0 : Int)) = 0 :=
          if_neg (by omega)
        rw [h2]
        rw [if_neg (by omega :
          ¬((0 : Int) < 0 ∨ ((Nat.choose n k : Nat) : Int) < -1))]
        have h3 : (if (0 : Int) > ((Nat.choose n k : Nat) : Int)
            then -(1 : Int) else (1 : Int)) = 1 := if_neg (by omega)
        rw [h3]
        rw [if_neg (by norm_num : ¬((1 : Int) = 0))]
        rw [pyRange_zero (Nat.choose n k)]
        exact hL
      · intro i hi
        have hiR : i < ((List.range (Nat.choose n k)).map
            (fun (i : Nat) => (i : Int))).length := by omega
        have hrel := (List.forall₂_iff_get.mp hLf).2 i hiR hi
        have hget : ((List.range (Nat.choose n k)).map
            (fun (i : Nat) => (i : Int))).get ⟨i, hiR⟩ = (i : Int) := by
          simp [List.get_eq_getElem, List.getElem_map, List.getElem_range]
        rw [hget] at hrel
        obtain ⟨c, hc1, hc2⟩ := hF (i : Int) (Int.natCast_nonneg i)
        have h5 : Except.ok c = Except.ok (L.get ⟨i, hi⟩) := hc2.symm.trans hrel
        injection h5 with h5
        rw [hc1, h5]
      · intro _
        omega
  · intro values length start stop step offset indexes L hok item hitem
    unfold get_combinations at hok
    simp only [] at hok
    by_cases h0 : nbValues values = 0 ∨ length = 0
    · rw [if_pos h0] at hok
      injection hok with hok
      rw [← hok] at hitem
      cases hitem
    · rw [if_neg h0] at hok
      cases hpc : pyComb (nbValues values) length with
      | error m =>
        simp only [hpc, exceptBind_err] at hok
        exact Except.noConfusion hok
      | ok nb =>
        simp only [hpc, exceptBind_ok] at hok
        exact enumerate_item_shape values length offset indexes _ _ _ L hok item hitem

theorem C3_enumerator_unranks_witness :
    (∃ L, get_combinations (.count ((5 : Nat) : Int)) ((3 : Nat) : Int) 0 none 1 0 none =
        .ok L ∧
      (∀ i (hi : i < L.length),
        get_combination_from_rank (i : Int) ((3 : Nat) : Int) 0 = .ok (L.get ⟨i, hi⟩)) ∧
      (1 ≤ 3 → L.length = Nat.choose 5 3)) ∧
    (∃ (r : Int) (c c2 : List Int), 0 ≤ r ∧
      get_combination_from_rank r 2 0 = .ok c ∧
      c.mapM (fun position => do
        let i ← getIndexFn none position
        getValueFn (.items [10, 20, 30]) i) = .ok c2 ∧
      ([110, 120] : List Int) = c2.map (fun v => v + 100)) :=
  ⟨C3_enumerator_unranks.1 5 3 (by norm_num) (by decide),
   C3_enumerator_unranks.2 (.items [10, 20, 30]) 2 0 none 1 100 none
     [[110, 120], [110, 130], [120, 130]] rfl [110, 120] (by simp)⟩

/-! ### Claim C5 -/

/-- Claim C5: for an enumerator over a ground set of size `n ≥ 1` with
`1 ≤ length ≤ n`, a `stop` beyond `C(n, length)` behaves as if replaced by
`C(n, length)` (the omitted-`stop` behavior), a `start ≥ C(n, length)`
behaves as if replaced by `C(n, length) - 1`, so an out-of-range `start`
yields exactly the last valid combination; in particular
`get_combinations(5, 3, start=100)` yields only `[2, 3, 4]`. -/
theorem C5_clamping :
    (∀ (n k : Nat) (start s step offset : Int) (indexes : Option (List Int)),
      1 ≤ n → 1 ≤ k → k ≤ n → (Nat.choose n k : Int) < s →
      get_combinations (.count (n : Int)) (k : Int) start (some s) step offset indexes =
        get_combinations (.count (n : Int)) (k : Int) start none step offset indexes) ∧
    (∀ (n k : Nat) (start : Int) (stop : Option Int) (step offset : Int)
        (indexes : Option (List Int)),
      1 ≤ n → 1 ≤ k → k ≤ n → (Nat.choose n k : Int) ≤ start →
      get_combinations (.count (n : Int)) (k : Int) start stop step offset indexes =
        get_combinations (.count (n : Int)) (k : Int) ((Nat.choose n k : Int) - 1) stop
          step offset indexes) ∧
    (∀ (n k : Nat) (start : Int), 1 ≤ n → 1 ≤ k → k ≤ n →
      (Nat.choose n k : Int) ≤ start →
      ∃ c, get_combination_from_rank ((Nat.choose n k : Int) - 1) (k : Int) 0 = .ok c ∧
        get_combinations (.count (n : Int)) (k : Int) start none 1 0 none = .ok [c]) ∧
    get_combinations (.count 5) 3 100 none 1 0 none = .ok [[2, 3, 4]] := by
  refine ⟨?_, ?_, ?_, rfl⟩
  · intro n k start s step offset indexes hn hk hkn hs
    unfold get_combinations
    simp only [nbValues, pyComb_natCast, exceptBind_ok]
    have h1 : (if s > ((Nat.choose n k : Nat) : Int) then ((Nat.choose n k : Nat) : Int)
        else s) = ((Nat.choose n k : Nat) : Int) := if_pos hs
    simp only [h1]
  · intro n k start stop step offset indexes hn hk hkn hstart
    have hC1 : (1 : Int) ≤ (Nat.choose n k : Int) := by
      exact_mod_cast Nat.choose_pos hkn
    unfold get_combinations
    simp only [nbValues, pyComb_natCast, exceptBind_ok]
    rw [if_pos (show start ≥ (Nat.choose n k : Int) from hstart),
      if_neg (by omega : ¬(Nat.choose n k : Int) - 1 ≥ (Nat.choose n k : Int))]
  · intro n k start hn hk hkn hstart
    have hC1 : (1 : Int) ≤ (Nat.choose n k : Int) := by
      exact_mod_cast Nat.choose_pos hkn
    obtain ⟨c, hcu, -, -, -, -⟩ := unrank_spec k hk ((Nat.choose n k : Int) - 1) 0 (by omega)
    refine ⟨c, hcu, ?_⟩
    unfold get_combinations
    simp only [nbValues, pyComb_natCast, exceptBind_ok]
    rw [show (((1 : Int).natAbs : Nat) : Int) = 1 from rfl]
    rw [if_neg (by omega : ¬((n : Int) = 0 ∨ (k : Int) = 0))]
    have h2 : (if start ≥ ((Nat.choose n k : Nat) : Int)
        then ((Nat.choose n k : Nat) : Int) - 1 else start) =
        ((Nat.choose n k : Nat) : Int) - 1 := if_pos hstart
    rw [h2]
    rw [if_neg (by omega :
      ¬(((Nat.choose n k : Nat) : Int) - 1 < 0 ∨ ((Nat.choose n k : Nat) : Int) < -1))]
    have h3 : (if ((Nat.choose n k : Nat) : Int) - 1 > ((Nat.choose n k : Nat) : Int)
        then -(1 : Int) else (1 : Int)) = (1 : Int) := if_neg (by omega)
    rw [h3]
    rw [if_neg (by norm_num : ¬((1 : Int) = 0))]
    rw [show pyRange (((Nat.choose n k : Nat) : Int) - 1) ((Nat.choose n k : Nat) : Int)
          (1 : Int) = [((Nat.choose n k : Nat) : Int) - 1] from by
      have hps := pyRange_succ_self (((Nat.choose n k : Nat) : Int) - 1)
      rw [show ((Nat.choose n k : Nat) : Int) - 1 + 1 =
        ((Nat.choose n k : Nat) : Int) from by ring] at hps
      exact hps]
    rw [List.mapM_cons, hcu, exceptBind_ok, mapM_count_noindex, exceptBind_ok,
      List.mapM_nil]
    have hmap : c.map (fun p => p + 0) = c := by
      simp
    rw [hmap]
    rfl

theorem C5_clamping_witness :
    (get_combinations (.count ((5 : Nat) : Int)) ((3 : Nat) : Int) 0 (some 50) 1 0 none =
      get_combinations (.count ((5 : Nat) : Int)) ((3 : Nat) : Int) 0 none 1 0 none) ∧
    (∃ c, get_combination_from_rank ((Nat.choose 5 3 : Int) - 1) ((3 : Nat) : Int) 0 =
        .ok c ∧
      get_combinations (.count ((5 : Nat) : Int)) ((3 : Nat) : Int) 100 none 1 0 none =
        .ok [c]) :=
  ⟨C5_clamping.1 5 3 0 50 1 0 none (by norm_num) (by norm_num) (by norm_num) (by decide),
   C5_clamping.2.2.1 5 3 100 (by norm_num) (by norm_num) (by norm_num) (by decide)⟩

/-! ### Claim C4 -/

/-- Claim C4: for every rank `r ≥ 0` and every offset, the unranker returns
`[]` at length 0 (even for nonzero rank) and `[rank + offset]` at length 1. -/
theorem C4_unrank_special_cases (r offset : Int) (hr : 0 ≤ r) :
    get_combination_from_rank r 0 offset = .ok [] ∧
    get_combination_from_rank r 1 offset = .ok [r + offset] := by
  constructor <;> simp [get_combination_from_rank, not_lt.mpr hr]

theorem C4_unrank_special_cases_witness :
    get_combination_from_rank 7 0 (-2) = .ok [] ∧
    get_combination_from_rank 7 1 (-2) = .ok [7 + -2] :=
  C4_unrank_special_cases 7 (-2) (by norm_num)

/-! ### Claim C6 -/

/-- Claim C6 counterexample: the claim says ranking an empty combination
fails with an error; the code instead returns rank 0 (here at offset 5). -/
theorem C6_empty_counterexample : get_combination_rank [] 5 = .ok 0 := rfl

/-- Claim C6 (amended): for every offset, `get_combination_rank` on the empty
combination returns rank 0 and does not fail. -/
theorem C6_empty_returns_zero (offset : Int) :
    get_combination_rank [] offset = .ok 0 := rfl

/-! ### Claim C7 -/

/-- Claim C7: for every offset and every (necessarily non-empty) combination
containing an element that is negative after subtracting the offset,
`get_combination_rank` raises an error instead of returning a rank. -/
theorem C7_negative_rejection (c : List Int) (offset x : Int) (hx : x ∈ c)
    (hneg : x - offset < 0) :
    ∃ msg, get_combination_rank c offset = .error msg := by
  unfold get_combination_rank
  have hxs : x ∈ c.insertionSort (· ≤ ·) :=
    (List.perm_insertionSort (· ≤ ·) c).mem_iff.mpr hx
  have hsorted : List.Sorted (· ≤ ·) (c.insertionSort (· ≤ ·)) :=
    List.sorted_insertionSort (· ≤ ·) c
  cases hsort : c.insertionSort (· ≤ ·) with
  | nil => rw [hsort] at hxs; cases hxs
  | cons h t =>
    rw [hsort] at hxs hsorted
    have hh : h ≤ x := by
      rcases List.mem_cons.mp hxs with rfl | hxt
      · exact le_refl x
      · exact List.rel_of_sorted_cons hsorted x hxt
    simp only [List.map_cons]
    exact rankAux_error_of_neg 0 (h - offset) _ (by omega)

theorem C7_negative_rejection_witness :
    ∃ msg, get_combination_rank [-1] 0 = .error msg :=
  C7_negative_rejection [-1] 0 (-1) (by simp) (by norm_num)

/-! ### Claim C8 -/

/-- Claim C8: whenever the resolved ground-set size is 0 or the requested
length is 0, `get_combinations` yields no items and raises no error,
whatever the other arguments are. -/
theorem C8_degenerate_empty (values : Values) (length start : Int)
    (stop : Option Int) (step offset : Int) (indexes : Option (List Int))
    (h : nbValues values = 0 ∨ length = 0) :
    get_combinations values length start stop step offset indexes = .ok [] := by
  unfold get_combinations
  simp only []
  rw [if_pos h]

theorem C8_degenerate_empty_witness :
    get_combinations (.count 0) 5 (-3) (some (-9)) 0 4 none = .ok [] :=
  C8_degenerate_empty (.count 0) 5 (-3) (some (-9)) 0 4 none (Or.inl rfl)

/-! ### Claim C10 -/

/-- Claim C10: for `0 < n < length` the combination space is empty
(`C(n, length) = 0`), the default `start = 0` is clamped to `-1`, and the
negative-range check then raises a `ValueError` instead of yielding an empty
sequence. -/
theorem C10_empty_space_raises (n k : Nat) (h1 : 0 < n) (h2 : n < k) :
    get_combinations (.count (n : Int)) (k : Int) 0 none 1 0 none =
      .error "A combination range cannot start or stop with a negative value" := by
  have hcomb : pyComb (n : Int) (k : Int) = .ok 0 := by
    unfold pyComb
    rw [if_neg (by omega), if_neg (by omega)]
    simp [Int.toNat_natCast, Nat.choose_eq_zero_of_lt h2]
  unfold get_combinations
  simp only [nbValues]
  rw [if_neg (by omega : ¬((n : Int) = 0 ∨ (k : Int) = 0))]
  rw [hcomb, exceptBind_ok]
  norm_num

theorem C10_empty_space_raises_witness :
    get_combinations (.count ((2 : Nat) : Int)) ((3 : Nat) : Int) 0 none 1 0 none =
      .error "A combination range cannot start or stop with a negative value" :=
  C10_empty_space_raises 2 3 (by norm_num) (by norm_num)

end Toolbox
